import Mathlib

/-!
Verification development for the FitCheck repository (backend/ai_modules).

The repository ships four python sources: the package initializer, the
Supabase vector store, the pipeline orchestrator, and a search script.
The mission-packing optimizer (knapsack_optimizer) is declared by the
package initializer but its implementation is not part of the shipped
sources, so it is modelled here from the specification, faithful to the
words of spec.md; every such definition carries a doc comment starting
with Modelled from the spec.  The vector-store and pipeline behaviour is
embedded directly from the python code.
-/

namespace Nexus

/-- Modelled from the spec, section 3: a candidate physical item.  Identity,
display name, category, non-negative weight and volume, a semantic relevance
score in the unit interval, and intrinsic utility attributes (thermal rating,
durability, compressibility), each normalized to the unit interval. -/
structure PackableItem where
  item_id : String
  name : String
  category : String
  weight : ℚ
  volume : ℚ
  relevance : ℚ
  thermal : ℚ
  durability : ℚ
  compressibility : ℚ
deriving DecidableEq, Repr

/-- Modelled from the spec, section 3: a bundle of packing limits. -/
structure PackingConstraints where
  max_weight : ℚ
  max_volume : ℚ
  max_items : Option ℕ
  required_categories : List String
  category_minimums : List (String × ℕ)
  category_maximums : List (String × ℕ)
  mission_duration_hours : Option ℚ
  preset_name : String
deriving DecidableEq, Repr

/-- Modelled from the spec, section 4.2: the configurable combination weights
of the scoring function. -/
structure ScoringWeights where
  relevance : ℚ
  thermal : ℚ
  durability : ℚ
  compressibility : ℚ
deriving DecidableEq, Repr

/-- Modelled from the spec, section 4.2: the documented default combination
weights (relevance dominates; the three intrinsic attributes share the rest). -/
def defaultWeights : ScoringWeights :=
  { relevance := 1/2, thermal := 1/5, durability := 1/5, compressibility := 1/10 }

def ScoringWeights.total (w : ScoringWeights) : ℚ :=
  w.relevance + w.thermal + w.durability + w.compressibility

/-- Modelled from the spec, section 4.2: utility of an item is a deterministic
weighted combination of its semantic relevance and its normalized intrinsic
attributes.  Inputs out of the declared ranges are rejected upstream
(InvalidItemError, spec section 7) rather than clamped, so no clamping
happens here. -/
def score (w : ScoringWeights) (i : PackableItem) : ℚ :=
  (w.relevance * i.relevance + w.thermal * i.thermal
    + w.durability * i.durability + w.compressibility * i.compressibility) / w.total

/-- Utility of an item under the default weights; the solver input items are
already scored (spec section 4.4). -/
def itemUtility (i : PackableItem) : ℚ := score defaultWeights i

/-- Validity of an item per spec section 7: non-negative weight and volume,
relevance and normalized intrinsic attributes in the unit interval. -/
def validItem (i : PackableItem) : Prop :=
  0 ≤ i.weight ∧ 0 ≤ i.volume ∧
  0 ≤ i.relevance ∧ i.relevance ≤ 1 ∧
  0 ≤ i.thermal ∧ i.thermal ≤ 1 ∧
  0 ≤ i.durability ∧ i.durability ≤ 1 ∧
  0 ≤ i.compressibility ∧ i.compressibility ≤ 1

instance (i : PackableItem) : Decidable (validItem i) := by
  unfold validItem; infer_instance

/- ------------------------------------------------------------------
Constraint profile registry (spec sections 3 and 4.1).
------------------------------------------------------------------ -/

/-- Modelled from the spec, section 4.1: the error raised when a requested
preset name has no registry entry. -/
inductive PresetError where
  | unknownPresetError
deriving DecidableEq, Repr

/-- Modelled from the spec, sections 3 and 8: the fixed bounds registered
under the name 24h_recon.  The registry table itself is not among the shipped
sources, so the concrete numbers are representative fixed data; the claims
depend only on the table being fixed. -/
def preset24hRecon : PackingConstraints :=
  { max_weight := 12, max_volume := 18, max_items := some 12
    required_categories := ["medical", "hydration"]
    category_minimums := [("medical", 1)]
    category_maximums := [("tools", 3)]
    mission_duration_hours := some 24
    preset_name := "24h_recon" }

/-- Modelled from the spec, section 3: a second representative registry entry. -/
def preset72hExpedition : PackingConstraints :=
  { max_weight := 28, max_volume := 45, max_items := some 25
    required_categories := ["medical", "hydration", "shelter"]
    category_minimums := [("medical", 2)]
    category_maximums := [("tools", 5)]
    mission_duration_hours := some 72
    preset_name := "72h_expedition" }

/-- Modelled from the spec, section 3: the immutable registry, a fixed mapping
from preset name to a fully populated constraints object, built once and never
mutated. -/
def CONSTRAINT_PRESETS : List (String × PackingConstraints) :=
  [("24h_recon", preset24hRecon), ("72h_expedition", preset72hExpedition)]

/-- Modelled from the spec, section 4.1: resolve a preset name against the
registry, failing with the unknown-preset error when the name is not
registered. -/
def resolve (name : String) : Except PresetError PackingConstraints :=
  match CONSTRAINT_PRESETS.lookup name with
  | some c => Except.ok c
  | none => Except.error PresetError.unknownPresetError

/- ------------------------------------------------------------------
Vector store: SupabaseVectorStore.search row mapping and count
(embedded from src/backend/ai_modules/vector_store.py).
------------------------------------------------------------------ -/

/-- A python dictionary field: absent from the row, present with value None,
or present with a value.  This distinction is what drives dict.get defaults. -/
inductive PyField (α : Type) where
  | absent : PyField α
  | null : PyField α
  | val : α → PyField α
deriving DecidableEq, Repr

/-- Python row.get(key, default): the default applies only when the key is
absent; a key present with value None yields None. -/
def PyField.getD {α : Type} : PyField α → α → Option α
  | .absent, d => some d
  | .null, _ => none
  | .val a, _ => some a

/-- Python row.get(key) with no default: absent and None both yield None. -/
def PyField.getOpt {α : Type} : PyField α → Option α
  | .absent => none
  | .null => none
  | .val a => some a

/-- One row of the match_nexus_items RPC response.  The fields read with
mandatory indexing in the code (id, similarity, name) are modelled as always
present; the fields read through dict.get are modelled as PyField. -/
structure Row where
  id : String
  similarity : ℚ
  name : String
  image_url : PyField String
  inferred_category : PyField String
  primary_material : PyField String
  weight_estimate : PyField String
  thermal_rating : PyField String
  water_resistance : PyField String
  medical_application : PyField String
  utility_summary : PyField String
  semantic_tags : PyField (List String)
  durability : PyField String
  compressibility : PyField String
deriving DecidableEq, Repr

/-- The ItemContext payload built by SupabaseVectorStore.search, embedded from
vector_store.py lines 203 to 215. -/
structure ItemContext where
  name : String
  inferred_category : Option String
  primary_material : Option String
  weight_estimate : Option String
  thermal_rating : Option String
  water_resistance : Option String
  medical_application : Option String
  utility_summary : Option String
  semantic_tags : Option (List String)
  durability : Option String
  compressibility : Option String
deriving DecidableEq, Repr

/-- The RetrievedItem payload built by SupabaseVectorStore.search, embedded
from vector_store.py lines 199 to 216. -/
structure RetrievedItem where
  item_id : String
  score : ℚ
  image_url : Option String
  context : ItemContext
deriving DecidableEq, Repr

/-- The per-row conversion performed inside the loop of
SupabaseVectorStore.search (vector_store.py lines 198 to 216): mandatory
fields are indexed directly, optional fields go through dict.get, with
defaults misc, the empty string, and the empty list for inferred_category,
utility_summary, and semantic_tags respectively. -/
def rowToItem (r : Row) : RetrievedItem :=
  { item_id := r.id
    score := r.similarity
    image_url := r.image_url.getOpt
    context :=
      { name := r.name
        inferred_category := r.inferred_category.getD "misc"
        primary_material := r.primary_material.getOpt
        weight_estimate := r.weight_estimate.getOpt
        thermal_rating := r.thermal_rating.getOpt
        water_resistance := r.water_resistance.getOpt
        medical_application := r.medical_application.getOpt
        utility_summary := r.utility_summary.getD ""
        semantic_tags := r.semantic_tags.getD []
        durability := r.durability.getOpt
        compressibility := r.compressibility.getOpt } }

/-- SupabaseVectorStore.search builds exactly one RetrievedItem per response
row, in response order (vector_store.py lines 197 to 219). -/
def searchResults (rows : List Row) : List RetrievedItem :=
  rows.map rowToItem

/-- SupabaseVectorStore.count (vector_store.py lines 226 to 229): python
response.count or 0, where the or replaces both None and 0 by 0. -/
def countOrZero (respCount : Option ℤ) : ℤ :=
  match respCount with
  | none => 0
  | some n => if n = 0 then 0 else n

/- ------------------------------------------------------------------
Pipeline: NexusPipeline.ingest_batch
(embedded from src/backend/ai_modules/pipeline.py lines 109 to 131).
------------------------------------------------------------------ -/

/-- NexusPipeline.ingest_batch: each item is ingested inside a try block; on
success its id is appended, on any exception the error is logged and the loop
continues with the next item.  The per-item ingest call is abstracted as a
function into Except. -/
def ingestBatch {α ε β : Type} (f : α → Except ε β) : List α → List β
  | [] => []
  | x :: xs =>
    match f x with
    | Except.ok y => y :: ingestBatch f xs
    | Except.error _ => ingestBatch f xs

/- ------------------------------------------------------------------
Solver aggregates and feasibility checks
(modelled from the spec, sections 4.3 and 4.4).
------------------------------------------------------------------ -/

def totalWeight (l : List PackableItem) : ℚ := (l.map PackableItem.weight).sum

def totalVolume (l : List PackableItem) : ℚ := (l.map PackableItem.volume).sum

def totalUtility (l : List PackableItem) : ℚ := (l.map itemUtility).sum

def catCount (cat : String) (l : List PackableItem) : ℕ :=
  (l.filter (fun i => decide (i.category = cat))).length

/-- Modelled from the spec, section 4.4: discretization of the weight
dimension into unit buckets; an item occupies the ceiling of its weight. -/
def ceilW (i : PackableItem) : ℕ := (Int.ceil i.weight).toNat

def ceilWeight (l : List PackableItem) : ℕ := (l.map ceilW).sum

/-- Modelled from the spec, section 4.3: the weight dimension check. -/
def weightOk (c : PackingConstraints) (l : List PackableItem) : Bool :=
  decide (totalWeight l ≤ c.max_weight)

/-- Modelled from the spec, section 4.3: the volume dimension check. -/
def volumeOk (c : PackingConstraints) (l : List PackableItem) : Bool :=
  decide (totalVolume l ≤ c.max_volume)

/-- Modelled from the spec, section 4.3: the item count check; an unbounded
max_items always passes. -/
def countOk (c : PackingConstraints) (l : List PackableItem) : Bool :=
  match c.max_items with
  | none => true
  | some m => decide (l.length ≤ m)

/-- Modelled from the spec, section 4.3: the per-category maximum check. -/
def catMaxOk (c : PackingConstraints) (l : List PackableItem) : Bool :=
  c.category_maximums.all (fun p => decide (catCount p.1 l ≤ p.2))

/-- Modelled from the spec, section 4.4: the admissibility filter applied
while building each DP state (volume, count, and category-maximum bounds;
the weight dimension is carried by the bucket index). -/
def admissible (c : PackingConstraints) (l : List PackableItem) : Bool :=
  volumeOk c l && countOk c l && catMaxOk c l

/-- Modelled from the spec, sections 4.3 and 4.4: the capacity acceptance
shared by the greedy insertion and the local-search pass; the single source
of truth also used for diagnostics. -/
def capacityOk (c : PackingConstraints) (l : List PackableItem) : Bool :=
  weightOk c l && admissible c l

/- ------------------------------------------------------------------
Deterministic orderings (modelled from the spec, section 4.4: tie-break
policy utility-density descending, weight ascending, volume ascending,
identifier ascending).
------------------------------------------------------------------ -/

/-- Modelled from the spec, glossary: utility per unit weight. -/
def density (i : PackableItem) : ℚ := itemUtility i / i.weight

/-- Modelled from the spec, section 4.4: the canonical candidate order as a
boolean comparison. -/
def sortLeB (a b : PackableItem) : Bool :=
  decide (density b < density a) ||
    (decide (density b = density a) &&
      (decide (a.weight < b.weight) ||
        (decide (a.weight = b.weight) &&
          (decide (a.volume < b.volume) ||
            (decide (a.volume = b.volume) && decide (a.item_id < b.item_id || a.item_id = b.item_id))))))

def sortLe (a b : PackableItem) : Prop := sortLeB a b = true

instance : DecidableRel sortLe := fun a b => inferInstanceAs (Decidable (_ = true))

/-- Modelled from the spec, section 4.5: selected items are ordered by
marginal utility contribution, most valuable first, ties by insertion order
(insertion sort is stable). -/
def utilGe (a b : PackableItem) : Prop := itemUtility b ≤ itemUtility a

instance : DecidableRel utilGe := fun a b => inferInstanceAs (Decidable (_ ≤ _))

/-- Modelled from the spec, section 4.4: strict preference used by the
mandatory-coverage phase: higher utility, then lower weight, then lower
volume, then lexicographically smaller identifier. -/
def phaseABetter (a b : PackableItem) : Bool :=
  decide (itemUtility b < itemUtility a) ||
    (decide (itemUtility b = itemUtility a) &&
      (decide (a.weight < b.weight) ||
        (decide (a.weight = b.weight) &&
          (decide (a.volume < b.volume) ||
            (decide (a.volume = b.volume) && decide (a.item_id < b.item_id))))))

/-- Pick the best element of a candidate list under the phase A preference,
keeping the earlier element on ties. -/
def chooseBest : List PackableItem → Option PackableItem
  | [] => none
  | i :: rest =>
    match chooseBest rest with
    | none => some i
    | some b => if phaseABetter b i then some b else some i

/- ------------------------------------------------------------------
Phase A: mandatory category coverage
(modelled from the spec, section 4.4).
------------------------------------------------------------------ -/

/-- State threaded through the mandatory-coverage phase. -/
structure PhaseAState where
  reserved : List PackableItem
  pool : List PackableItem
  remW : ℚ
  remV : ℚ
  unmet : List String
deriving Repr

/-- Modelled from the spec, section 4.4: an item of the required category
that individually fits within the budget remaining at this point of the
reservation sequence.  The fit is checked against the remaining budget so
that the reservations jointly respect the bounds, as demanded by the
testable property of spec section 8. -/
def phaseAFits (remW remV : ℚ) (cat : String) (i : PackableItem) : Bool :=
  decide (i.category = cat) && decide (i.weight ≤ remW) && decide (i.volume ≤ remV)

/-- Modelled from the spec, section 4.4: for one required category, greedily
reserve the highest-utility fitting item; if none fits, mark the category
unmet and continue (the solver does not abort). -/
def phaseAStep (st : PhaseAState) (cat : String) : PhaseAState :=
  match chooseBest (st.pool.filter (phaseAFits st.remW st.remV cat)) with
  | none => { st with unmet := st.unmet ++ [cat] }
  | some b =>
    { reserved := st.reserved ++ [b]
      pool := st.pool.erase b
      remW := st.remW - b.weight
      remV := st.remV - b.volume
      unmet := st.unmet }

/-- Modelled from the spec, section 4.4, phase A: mandatory coverage over the
set of required categories. -/
def phaseA (items : List PackableItem) (c : PackingConstraints) : PhaseAState :=
  c.required_categories.dedup.foldl phaseAStep
    { reserved := [], pool := items, remW := c.max_weight, remV := c.max_volume, unmet := [] }

/- ------------------------------------------------------------------
Phase B, exact path: bounded dynamic programming
(modelled from the spec, section 4.4).
------------------------------------------------------------------ -/

/-- Keep the higher-utility state, the first on ties. -/
def betterState (a b : List PackableItem) : List PackableItem :=
  if totalUtility a < totalUtility b then b else a

def betterOpt : Option (List PackableItem) → Option (List PackableItem) → Option (List PackableItem)
  | none, o => o
  | some a, none => some a
  | some a, some b => some (betterState a b)

/-- Modelled from the spec, section 4.4: the DP table over weight buckets.
A bucket holds the maximum-utility state of exactly that discretized weight;
a state is not expanded when accepting the item would violate the volume,
count, or category-maximum bounds (checked together with the phase A
reservations held in base). -/
def dpTable (c : PackingConstraints) (base : List PackableItem) :
    List PackableItem → ℕ → Option (List PackableItem)
  | [], w => if w = 0 then some [] else none
  | i :: rest, w =>
    let skip := dpTable c base rest w
    let take :=
      if ceilW i ≤ w then
        match dpTable c base rest (w - ceilW i) with
        | none => none
        | some s => if admissible c ((i :: s) ++ base) then some (i :: s) else none
      else none
    betterOpt skip take

/-- Pick the maximum-utility state among the computed buckets, the earlier
bucket on ties. -/
def pickBest : List (List PackableItem) → Option (List PackableItem)
  | [] => none
  | s :: rest =>
    match pickBest rest with
    | none => some s
    | some b => if totalUtility s < totalUtility b then some b else some s

/-- Modelled from the spec, section 4.4: the remaining weight budget after
the phase A reservations, discretized into unit buckets. -/
def dpBudget (c : PackingConstraints) (base : List PackableItem) : ℕ :=
  (Int.floor (c.max_weight - totalWeight base)).toNat

/-- Modelled from the spec, section 4.4: the exact bounded dynamic program;
the final answer is the best bucket not exceeding the remaining budget. -/
def dpSolve (c : PackingConstraints) (base pool : List PackableItem) : List PackableItem :=
  match pickBest ((List.range (dpBudget c base + 1)).filterMap (fun w => dpTable c base pool w)) with
  | none => []
  | some s => s

/- ------------------------------------------------------------------
Phase B, heuristic path: greedy insertion with bounded local search
(modelled from the spec, section 4.4).
------------------------------------------------------------------ -/

/-- Modelled from the spec, section 4.4: insert in order while the capacity
acceptance holds, skipping (not stopping) on infeasible items. -/
def greedyFill (c : PackingConstraints) (base : List PackableItem) :
    List PackableItem → List PackableItem → List PackableItem →
      List PackableItem × List PackableItem
  | [], acc, rej => (acc, rej)
  | i :: rest, acc, rej =>
    if capacityOk c ((acc ++ [i]) ++ base) then greedyFill c base rest (acc ++ [i]) rej
    else greedyFill c base rest acc (rej ++ [i])

/-- A proposed pairwise swap: replace s by u, accepted only when the swapped
selection stays within capacity and strictly increases total utility. -/
def swapTry (c : PackingConstraints) (base sel : List PackableItem)
    (s u : PackableItem) : Bool :=
  capacityOk c ((u :: sel.erase s) ++ base) &&
    decide (totalUtility sel < totalUtility (u :: sel.erase s))

/-- First unselected item that yields an accepted swap against s. -/
def swapCandidate (c : PackingConstraints) (base sel rest : List PackableItem)
    (s : PackableItem) : Option (List PackableItem × List PackableItem) :=
  match rest.find? (swapTry c base sel s) with
  | some u => some (u :: sel.erase s, s :: rest.erase u)
  | none => none

/-- Scan the selected items for the first accepted pairwise swap. -/
def findSwapAux (c : PackingConstraints) (base sel rest : List PackableItem) :
    List PackableItem → Option (List PackableItem × List PackableItem)
  | [] => none
  | s :: ss =>
    match swapCandidate c base sel rest s with
    | some p => some p
    | none => findSwapAux c base sel rest ss

/-- Modelled from the spec, section 4.4: the bounded local-search pass, a
fixed number of pairwise swap attempts, stopping early when no improving
feasible swap exists. -/
def localSearch (c : PackingConstraints) (base : List PackableItem) :
    ℕ → List PackableItem → List PackableItem → List PackableItem
  | 0, sel, _ => sel
  | Nat.succ fuel, sel, rest =>
    match findSwapAux c base sel rest sel with
    | none => sel
    | some p => localSearch c base fuel p.1 p.2

/- ------------------------------------------------------------------
Phase B dispatch, result assembly, and the optimizer entry point
(modelled from the spec, sections 4.4 and 4.5).
------------------------------------------------------------------ -/

/-- Modelled from the spec, section 4.4: the fixed exactness threshold on the
remaining pool size. -/
def exactnessThreshold : ℕ := 40

/-- Modelled from the spec, section 4.4: the fixed local-search iteration
budget. -/
def localSearchBudget : ℕ := 20

/-- Modelled from the spec, section 4.4: phase B selects the exact bounded
dynamic program at or below the exactness threshold and the greedy heuristic
with local search above it. -/
def solveB (c : PackingConstraints) (base pool : List PackableItem) : List PackableItem :=
  if pool.length ≤ exactnessThreshold then dpSolve c base pool
  else
    let g := greedyFill c base pool [] []
    localSearch c base localSearchBudget g.1 g.2

/-- Modelled from the spec, section 4.4: a rejection reason per excluded
item, chosen by first applicable rule. -/
inductive RejectionReason where
  | CAPACITY_EXCEEDED
  | CATEGORY_QUOTA_FULL
  | ITEM_COUNT_LIMIT
  | BELOW_UTILITY_THRESHOLD
deriving DecidableEq, Repr

def reasonRank : RejectionReason → ℕ
  | .CAPACITY_EXCEEDED => 0
  | .CATEGORY_QUOTA_FULL => 1
  | .ITEM_COUNT_LIMIT => 2
  | .BELOW_UTILITY_THRESHOLD => 3

def reasonLe (a b : PackableItem × RejectionReason) : Prop :=
  reasonRank a.2 ≤ reasonRank b.2

instance : DecidableRel reasonLe := fun a b => inferInstanceAs (Decidable (_ ≤ _))

/-- Modelled from the spec, section 4.4: first applicable rejection rule for
an item excluded from the final selection. -/
def rejectionReason (c : PackingConstraints) (sel : List PackableItem)
    (i : PackableItem) : RejectionReason :=
  if ¬ (totalWeight (i :: sel) ≤ c.max_weight ∧ totalVolume (i :: sel) ≤ c.max_volume) then
    RejectionReason.CAPACITY_EXCEEDED
  else if ¬ (catMaxOk c (i :: sel) = true) then RejectionReason.CATEGORY_QUOTA_FULL
  else if ¬ (countOk c (i :: sel) = true) then RejectionReason.ITEM_COUNT_LIMIT
  else RejectionReason.BELOW_UTILITY_THRESHOLD

/-- Modelled from the spec, sections 3 and 4.5: the structured result. -/
structure PackingResult where
  selected : List (PackableItem × ℚ)
  rejected : List (PackableItem × RejectionReason)
  total_weight : ℚ
  total_volume : ℚ
  total_utility : ℚ
  weight_utilization : ℚ
  volume_utilization : ℚ
  feasible : Bool
deriving DecidableEq, Repr

/-- Modelled from the spec, section 4.5: every category minimum is met in the
final selection. -/
def minimumsOk (c : PackingConstraints) (sel : List PackableItem) : Bool :=
  c.category_minimums.all (fun p => decide (p.2 ≤ catCount p.1 sel))

/-- Modelled from the spec, section 4.5: the result assembler.  Selected items
are ordered by marginal utility contribution; every input item outside the
selection is rejected with its first applicable reason, grouped by reason;
aggregates and utilization follow; feasible holds exactly when phase A left no
required category unmet and every category minimum is met. -/
def assemble (items : List PackableItem) (c : PackingConstraints)
    (chosenRaw : List PackableItem) (unmet : List String) : PackingResult :=
  let sel := List.insertionSort utilGe chosenRaw
  let rejItems := items.filter (fun i => decide (¬ i ∈ sel))
  { selected := sel.map (fun i => (i, itemUtility i))
    rejected := List.insertionSort reasonLe (rejItems.map (fun i => (i, rejectionReason c sel i)))
    total_weight := totalWeight sel
    total_volume := totalVolume sel
    total_utility := totalUtility sel
    weight_utilization := totalWeight sel / c.max_weight
    volume_utilization := totalVolume sel / c.max_volume
    feasible := unmet.isEmpty && minimumsOk c sel }

/-- Modelled from the spec, sections 2 and 4.4: the optimizer entry point, a
pure function of the scored item list and the resolved constraints: canonical
deterministic ordering, mandatory coverage, budget-filling phase B over the
remaining pool and budget, then result assembly. -/
def optimize (items : List PackableItem) (c : PackingConstraints) : PackingResult :=
  let sorted := List.insertionSort sortLe items
  let stA := phaseA sorted c
  let chosen := solveB c stA.reserved stA.pool
  assemble items c (stA.reserved ++ chosen) stA.unmet

/- ------------------------------------------------------------------
Proof-support predicates (invariants of the two solver phases).
------------------------------------------------------------------ -/

/-- Budget-accounting invariant of the mandatory-coverage phase: the reserved
items and the remaining pool partition the initial pool, the remaining
budgets equal the full budgets minus the reservations, and the remaining
budgets never go negative. -/
def phaseAInv (c : PackingConstraints) (items : List PackableItem)
    (st : PhaseAState) : Prop :=
  (st.reserved ++ st.pool).Perm items ∧
  st.remW = c.max_weight - totalWeight st.reserved ∧
  st.remV = c.max_volume - totalVolume st.reserved ∧
  0 ≤ st.remW ∧ 0 ≤ st.remV

/-- Coverage invariant of the mandatory-coverage phase: the pool only shrinks
and the remaining budgets only tighten (given non-negative item weights and
volumes). -/
def phaseACoverInv (c : PackingConstraints) (items : List PackableItem)
    (st : PhaseAState) : Prop :=
  (∀ i, i ∈ st.pool → i ∈ items) ∧
  st.remW ≤ c.max_weight ∧ st.remV ≤ c.max_volume

/- ------------------------------------------------------------------
Concrete fixtures used by witnesses and counterexamples.
------------------------------------------------------------------ -/

/-- A heavy communications item: weight 6, utility 81/200. -/
def cexRadioBig : PackableItem := ⟨"r1", "radio-big", "comms", 6, 1, 81/100, 0, 0, 0⟩

/-- A light communications item: weight 1, utility 2/5. -/
def cexRadioSmall : PackableItem := ⟨"r2", "radio-small", "comms", 1, 1, 8/10, 0, 0, 0⟩

/-- A food item: weight 4, utility 1/2. -/
def cexFoodPack : PackableItem := ⟨"x1", "food-pack", "food", 4, 1, 1, 0, 0, 0⟩

/-- An item too heavy for the small budgets used in the fixtures. -/
def cexAnvil : PackableItem := ⟨"h1", "anvil", "misc", 10, 1, 1, 1, 1, 1⟩

/-- Constraints requiring the comms category, with a variable weight budget. -/
def cexCommsConstraints (w : ℚ) : PackingConstraints :=
  { max_weight := w, max_volume := 100, max_items := none
    required_categories := ["comms"], category_minimums := [], category_maximums := []
    mission_duration_hours := none, preset_name := "custom" }

/-- Constraints with no required categories and no minimums. -/
def cexNoReqConstraints : PackingConstraints :=
  { max_weight := 5, max_volume := 10, max_items := none
    required_categories := [], category_minimums := [], category_maximums := []
    mission_duration_hours := none, preset_name := "custom" }

/-- Constraints requiring the medical category within a small budget. -/
def cexReqMedicalConstraints : PackingConstraints :=
  { max_weight := 5, max_volume := 10, max_items := none
    required_categories := ["medical"], category_minimums := [], category_maximums := []
    mission_duration_hours := none, preset_name := "custom" }

/-- An unfittable medical item (weight above the fixture budget). -/
def cexMedKit : PackableItem := ⟨"m1", "med-kit", "medical", 50, 1, 1, 0, 0, 0⟩

/-- A fully valid item used by the scoring witness. -/
def witScoreItem : PackableItem := ⟨"w1", "blanket", "misc", 1, 1, 1/2, 1/2, 1/2, 1/2⟩

end Nexus

/- ==================================================================
Theorems.
================================================================== -/

namespace Nexus

/- ------------------------------------------------------------------
Aggregate bookkeeping lemmas.
------------------------------------------------------------------ -/

theorem totalWeight_nil : totalWeight [] = 0 := rfl

theorem totalWeight_cons (i : PackableItem) (l : List PackableItem) :
    totalWeight (i :: l) = i.weight + totalWeight l := by
  simp [totalWeight]

theorem totalWeight_append (l₁ l₂ : List PackableItem) :
    totalWeight (l₁ ++ l₂) = totalWeight l₁ + totalWeight l₂ := by
  simp [totalWeight]

theorem totalVolume_cons (i : PackableItem) (l : List PackableItem) :
    totalVolume (i :: l) = i.volume + totalVolume l := by
  simp [totalVolume]

theorem totalVolume_append (l₁ l₂ : List PackableItem) :
    totalVolume (l₁ ++ l₂) = totalVolume l₁ + totalVolume l₂ := by
  simp [totalVolume]

theorem totalUtility_append (l₁ l₂ : List PackableItem) :
    totalUtility (l₁ ++ l₂) = totalUtility l₁ + totalUtility l₂ := by
  simp [totalUtility]

theorem totalWeight_perm {l₁ l₂ : List PackableItem} (h : l₁.Perm l₂) :
    totalWeight l₁ = totalWeight l₂ :=
  (h.map PackableItem.weight).sum_eq

theorem totalVolume_perm {l₁ l₂ : List PackableItem} (h : l₁.Perm l₂) :
    totalVolume l₁ = totalVolume l₂ :=
  (h.map PackableItem.volume).sum_eq

theorem totalUtility_perm {l₁ l₂ : List PackableItem} (h : l₁.Perm l₂) :
    totalUtility l₁ = totalUtility l₂ :=
  (h.map itemUtility).sum_eq

theorem weight_le_ceilW (i : PackableItem) : i.weight ≤ (ceilW i : ℚ) := by
  unfold ceilW
  have h1 : i.weight ≤ (Int.ceil i.weight : ℚ) := Int.le_ceil _
  have h2 : (Int.ceil i.weight : ℚ) ≤ ((Int.ceil i.weight).toNat : ℚ) := by
    exact_mod_cast Int.self_le_toNat _
  linarith

theorem totalWeight_le_ceilWeight (l : List PackableItem) :
    totalWeight l ≤ (ceilWeight l : ℚ) := by
  induction l with
  | nil => simp [totalWeight, ceilWeight]
  | cons i l ih =>
    have := weight_le_ceilW i
    rw [totalWeight_cons]
    unfold ceilWeight at ih ⊢
    push_cast [List.map_cons, List.sum_cons]
    push_cast at ih
    linarith

theorem ceilWeight_cons (i : PackableItem) (l : List PackableItem) :
    ceilWeight (i :: l) = ceilW i + ceilWeight l := by
  simp [ceilWeight]

/- ------------------------------------------------------------------
Feasibility-check extraction lemmas.
------------------------------------------------------------------ -/

theorem admissible_volume {c : PackingConstraints} {l : List PackableItem}
    (h : admissible c l = true) : totalVolume l ≤ c.max_volume := by
  simp [admissible, volumeOk, Bool.and_eq_true, decide_eq_true_iff] at h
  exact h.1.1

theorem capacityOk_weight {c : PackingConstraints} {l : List PackableItem}
    (h : capacityOk c l = true) : totalWeight l ≤ c.max_weight := by
  simp [capacityOk, weightOk, Bool.and_eq_true, decide_eq_true_iff] at h
  exact h.1

theorem capacityOk_volume {c : PackingConstraints} {l : List PackableItem}
    (h : capacityOk c l = true) : totalVolume l ≤ c.max_volume := by
  simp [capacityOk, Bool.and_eq_true] at h
  exact admissible_volume h.2

/- ------------------------------------------------------------------
Lemmas about the phase A candidate choice.
------------------------------------------------------------------ -/

theorem chooseBest_mem : ∀ {l : List PackableItem} {b : PackableItem},
    chooseBest l = some b → b ∈ l := by
  intro l
  induction l with
  | nil => intro b h; simp [chooseBest] at h
  | cons i rest ih =>
    intro b h
    unfold chooseBest at h
    cases hr : chooseBest rest with
    | none => rw [hr] at h; simp at h; simp [h]
    | some b' =>
      rw [hr] at h
      simp at h
      by_cases hb : phaseABetter b' i = true
      · rw [if_pos hb] at h
        simp at h
        exact List.mem_cons_of_mem i (ih (h ▸ hr))
      · rw [if_neg hb] at h
        simp at h
        simp [h]

theorem chooseBest_eq_none : ∀ {l : List PackableItem},
    chooseBest l = none → l = [] := by
  intro l h
  cases l with
  | nil => rfl
  | cons i rest =>
    unfold chooseBest at h
    cases hr : chooseBest rest <;> rw [hr] at h <;> simp at h
    split at h <;> simp at h

/- ------------------------------------------------------------------
Phase A invariants.
------------------------------------------------------------------ -/

theorem phaseAFits_spec {remW remV : ℚ} {cat : String} {i : PackableItem}
    (h : phaseAFits remW remV cat i = true) :
    i.category = cat ∧ i.weight ≤ remW ∧ i.volume ≤ remV := by
  simp [phaseAFits, Bool.and_eq_true, decide_eq_true_iff] at h
  exact ⟨h.1.1, h.1.2, h.2⟩

theorem phaseAStep_inv {c : PackingConstraints} {items : List PackableItem}
    {st : PhaseAState} (cat : String) (h : phaseAInv c items st) :
    phaseAInv c items (phaseAStep st cat) := by
  obtain ⟨hperm, hW, hV, hWn, hVn⟩ := h
  cases hcb : chooseBest (st.pool.filter (phaseAFits st.remW st.remV cat)) with
  | none =>
    simp only [phaseAStep, hcb]
    exact ⟨hperm, hW, hV, hWn, hVn⟩
  | some b =>
    have hbmem : b ∈ st.pool.filter (phaseAFits st.remW st.remV cat) := chooseBest_mem hcb
    have hbpool : b ∈ st.pool := List.mem_of_mem_filter hbmem
    have hbfits : phaseAFits st.remW st.remV cat b = true := List.of_mem_filter hbmem
    obtain ⟨_, hbw, hbv⟩ := phaseAFits_spec hbfits
    have h1 : (st.pool).Perm (b :: st.pool.erase b) := List.perm_cons_erase hbpool
    have hstep : ((st.reserved ++ [b]) ++ st.pool.erase b).Perm (st.reserved ++ st.pool) := by
      rw [List.append_assoc]
      exact (h1.symm).append_left st.reserved
    simp only [phaseAStep, hcb]
    refine ⟨hstep.trans hperm, ?_, ?_,
      by show (0:ℚ) ≤ st.remW - b.weight; linarith,
      by show (0:ℚ) ≤ st.remV - b.volume; linarith⟩
    · rw [totalWeight_append, hW]
      simp [totalWeight]
      ring
    · rw [totalVolume_append, hV]
      simp [totalVolume]
      ring

theorem phaseA_foldl_inv {c : PackingConstraints} {items : List PackableItem} :
    ∀ (cats : List String) (st : PhaseAState), phaseAInv c items st →
      phaseAInv c items (List.foldl phaseAStep st cats) := by
  intro cats
  induction cats with
  | nil => intro st h; exact h
  | cons cat cats ih =>
    intro st h
    exact ih _ (phaseAStep_inv cat h)

theorem phaseA_inv {c : PackingConstraints} {items : List PackableItem}
    (hw : 0 ≤ c.max_weight) (hv : 0 ≤ c.max_volume) :
    phaseAInv c items (phaseA items c) := by
  unfold phaseA
  apply phaseA_foldl_inv
  refine ⟨by simp, ?_, ?_, hw, hv⟩ <;> simp [totalWeight, totalVolume]

/- ------------------------------------------------------------------
Dynamic-programming table lemmas.
------------------------------------------------------------------ -/

theorem betterOpt_eq_some {o₁ o₂ : Option (List PackableItem)} {s : List PackableItem}
    (h : betterOpt o₁ o₂ = some s) : o₁ = some s ∨ o₂ = some s := by
  cases o₁ with
  | none => exact Or.inr h
  | some a =>
    cases o₂ with
    | none => exact Or.inl h
    | some b =>
      simp only [betterOpt, betterState] at h
      rcases ite_eq_iff.mp (Option.some.inj h) with ⟨_, rfl⟩ | ⟨_, rfl⟩
      · exact Or.inr rfl
      · exact Or.inl rfl

theorem betterOpt_isSome_left {s : List PackableItem} :
    ∀ o, (betterOpt (some s) o).isSome = true := by
  intro o; cases o <;> simp [betterOpt]

theorem dpTable_spec {c : PackingConstraints} {base : List PackableItem} :
    ∀ (pool : List PackableItem) (w : ℕ) (s : List PackableItem),
      dpTable c base pool w = some s →
      s.Sublist pool ∧ ceilWeight s = w ∧
        (s = [] ∨ admissible c (s ++ base) = true) := by
  intro pool
  induction pool with
  | nil =>
    intro w s h
    simp only [dpTable] at h
    split at h
    · rename_i hw
      cases h
      exact ⟨List.Sublist.refl _, by simp [ceilWeight, hw], Or.inl rfl⟩
    · simp at h
  | cons i rest ih =>
    intro w s h
    simp only [dpTable] at h
    rcases betterOpt_eq_some h with hskip | htake
    · obtain ⟨h1, h2, h3⟩ := ih w s hskip
      exact ⟨h1.cons i, h2, h3⟩
    · by_cases hcw : ceilW i ≤ w
      · rw [if_pos hcw] at htake
        split at htake
        · simp at htake
        · rename_i s' hrec
          by_cases hadm : admissible c ((i :: s') ++ base) = true
          · rw [if_pos hadm] at htake
            obtain rfl : i :: s' = s := Option.some.inj htake
            obtain ⟨h1, h2, _⟩ := ih _ _ hrec
            refine ⟨h1.cons₂ i, ?_, Or.inr hadm⟩
            rw [ceilWeight_cons, h2]
            omega
          · rw [if_neg hadm] at htake
            simp at htake
      · rw [if_neg hcw] at htake
        simp at htake

theorem dpTable_zero_isSome {c : PackingConstraints} {base : List PackableItem} :
    ∀ pool, (dpTable c base pool 0).isSome = true := by
  intro pool
  induction pool with
  | nil => simp [dpTable]
  | cons i rest ih =>
    simp only [dpTable]
    cases hs : dpTable c base rest 0 with
    | none => rw [hs] at ih; simp at ih
    | some s => exact betterOpt_isSome_left _

/- ------------------------------------------------------------------
Bucket-choice lemmas.
------------------------------------------------------------------ -/

theorem pickBest_eq_none : ∀ {l : List (List PackableItem)},
    pickBest l = none → l = [] := by
  intro l h
  cases l with
  | nil => rfl
  | cons s rest =>
    simp only [pickBest] at h
    cases hr : pickBest rest <;> rw [hr] at h <;> simp at h
    split at h <;> simp at h

theorem pickBest_mem : ∀ {l : List (List PackableItem)} {b : List PackableItem},
    pickBest l = some b → b ∈ l := by
  intro l
  induction l with
  | nil => intro b h; simp [pickBest] at h
  | cons s rest ih =>
    intro b h
    simp only [pickBest] at h
    cases hr : pickBest rest with
    | none =>
      rw [hr] at h
      simp only [Option.some.injEq] at h
      rw [← h]
      exact List.mem_cons_self _ _
    | some b' =>
      rw [hr] at h
      dsimp only at h
      by_cases hlt : totalUtility s < totalUtility b'
      · rw [if_pos hlt] at h
        simp only [Option.some.injEq] at h
        subst h
        exact List.mem_cons_of_mem _ (ih hr)
      · rw [if_neg hlt] at h
        simp only [Option.some.injEq] at h
        rw [← h]
        exact List.mem_cons_self _ _

theorem pickBest_is_max : ∀ {l : List (List PackableItem)} {b : List PackableItem},
    pickBest l = some b → ∀ x ∈ l, totalUtility x ≤ totalUtility b := by
  intro l
  induction l with
  | nil => intro b _ x hx; simp at hx
  | cons s rest ih =>
    intro b h x hx
    simp only [pickBest] at h
    cases hr : pickBest rest with
    | none =>
      rw [hr] at h
      simp only [Option.some.injEq] at h
      have hrest : rest = [] := pickBest_eq_none hr
      subst hrest
      rcases List.mem_cons.mp hx with rfl | hx2
      · rw [← h]
      · simp at hx2
    | some b' =>
      rw [hr] at h
      dsimp only at h
      by_cases hlt : totalUtility s < totalUtility b'
      · rw [if_pos hlt] at h
        simp only [Option.some.injEq] at h
        subst h
        rcases List.mem_cons.mp hx with rfl | hx2
        · exact le_of_lt hlt
        · exact ih hr x hx2
      · rw [if_neg hlt] at h
        simp only [Option.some.injEq] at h
        subst h
        rcases List.mem_cons.mp hx with rfl | hx2
        · exact le_refl _
        · exact (ih hr x hx2).trans (not_lt.mp hlt)

/- ------------------------------------------------------------------
DP budget and exact-path specification.
------------------------------------------------------------------ -/

theorem dpBudget_le {c : PackingConstraints} {base : List PackableItem}
    (h : 0 ≤ c.max_weight - totalWeight base) :
    (dpBudget c base : ℚ) ≤ c.max_weight - totalWeight base := by
  unfold dpBudget
  have h1 : (0:ℤ) ≤ Int.floor (c.max_weight - totalWeight base) := Int.floor_nonneg.mpr h
  have h2 : ((Int.floor (c.max_weight - totalWeight base)).toNat : ℤ)
      = Int.floor (c.max_weight - totalWeight base) := Int.toNat_of_nonneg h1
  have h3 : ((Int.floor (c.max_weight - totalWeight base) : ℤ) : ℚ)
      ≤ c.max_weight - totalWeight base := Int.floor_le _
  have h4 : (((Int.floor (c.max_weight - totalWeight base)).toNat : ℤ) : ℚ)
      ≤ c.max_weight - totalWeight base := by rw [h2]; exact h3
  exact_mod_cast h4

theorem dpSolve_spec {c : PackingConstraints} {base : List PackableItem}
    (pool : List PackableItem) (hrem : 0 ≤ c.max_weight - totalWeight base) :
    totalWeight (dpSolve c base pool) ≤ c.max_weight - totalWeight base ∧
    (dpSolve c base pool = [] ∨ admissible c (dpSolve c base pool ++ base) = true) ∧
    (dpSolve c base pool).Sublist pool := by
  cases hp : pickBest ((List.range (dpBudget c base + 1)).filterMap
      (fun w => dpTable c base pool w)) with
  | none =>
    have hd : dpSolve c base pool = [] := by simp [dpSolve, hp]
    rw [hd]
    exact ⟨by simpa [totalWeight] using hrem, Or.inl rfl, List.nil_sublist _⟩
  | some s =>
    have hd : dpSolve c base pool = s := by simp [dpSolve, hp]
    rw [hd]
    have hmem := pickBest_mem hp
    obtain ⟨w, hwmem, hw⟩ := List.mem_filterMap.mp hmem
    have hwle : w ≤ dpBudget c base := Nat.lt_succ_iff.mp (List.mem_range.mp hwmem)
    obtain ⟨hsub, hcw, hadm⟩ := dpTable_spec pool w s hw
    refine ⟨?_, hadm, hsub⟩
    have hle := totalWeight_le_ceilWeight s
    rw [hcw] at hle
    have hcast : (w:ℚ) ≤ (dpBudget c base : ℚ) := by exact_mod_cast hwle
    have hbud := dpBudget_le hrem
    linarith

/- ------------------------------------------------------------------
Sublists, complements, and shuffles.
------------------------------------------------------------------ -/

theorem sublist_exists_perm_append {α : Type} {l L : List α} (h : l.Sublist L) :
    ∃ r, (l ++ r).Perm L := by
  induction h with
  | slnil => exact ⟨[], List.Perm.refl _⟩
  | cons a h ih =>
    obtain ⟨r, hr⟩ := ih
    exact ⟨a :: r, List.perm_middle.trans (hr.cons a)⟩
  | cons₂ a h ih =>
    obtain ⟨r, hr⟩ := ih
    exact ⟨r, hr.cons a⟩

theorem shuffle_reserved {α : Type} (i : α) (acc rej rest : List α) :
    (((acc ++ [i]) ++ rej) ++ rest).Perm ((acc ++ rej) ++ (i :: rest)) := by
  have h1 : ((acc ++ [i]) ++ rej) ++ rest = acc ++ (i :: (rej ++ rest)) := by simp
  have h2 : (acc ++ rej) ++ (i :: rest) = acc ++ (rej ++ i :: rest) := by simp
  rw [h1, h2]
  exact (List.perm_middle.symm).append_left acc

theorem swap_perm {α : Type} {sel rest es eu : List α} {s u : α}
    (hsel : sel.Perm (s :: es)) (hrest : rest.Perm (u :: eu)) :
    ((u :: es) ++ (s :: eu)).Perm (sel ++ rest) := by
  have h2 : (es ++ s :: eu).Perm (s :: (es ++ eu)) := List.perm_middle
  have h3 : ((u :: es) ++ (s :: eu)).Perm (u :: s :: (es ++ eu)) := h2.cons u
  have h4 : (u :: s :: (es ++ eu)).Perm (s :: u :: (es ++ eu)) := List.Perm.swap s u _
  have h5 : (s :: u :: (es ++ eu)).Perm (s :: (es ++ u :: eu)) :=
    (List.perm_middle.symm).cons s
  have h7 : ((s :: es) ++ (u :: eu)).Perm (sel ++ rest) := (hsel.symm).append (hrest.symm)
  exact ((h3.trans h4).trans h5).trans h7

/- ------------------------------------------------------------------
Greedy-fill lemmas.
------------------------------------------------------------------ -/

theorem greedyFill_cap {c : PackingConstraints} {base : List PackableItem} :
    ∀ (pool acc rej : List PackableItem),
      (acc = [] ∨ capacityOk c (acc ++ base) = true) →
      ((greedyFill c base pool acc rej).1 = [] ∨
        capacityOk c ((greedyFill c base pool acc rej).1 ++ base) = true) := by
  intro pool
  induction pool with
  | nil => intro acc rej h; exact h
  | cons i rest ih =>
    intro acc rej h
    simp only [greedyFill]
    by_cases hcap : capacityOk c ((acc ++ [i]) ++ base) = true
    · rw [if_pos hcap]
      exact ih _ _ (Or.inr hcap)
    · rw [if_neg hcap]
      exact ih _ _ h

theorem greedyFill_perm {c : PackingConstraints} {base : List PackableItem} :
    ∀ (pool acc rej : List PackableItem),
      ((greedyFill c base pool acc rej).1 ++ (greedyFill c base pool acc rej).2).Perm
        ((acc ++ rej) ++ pool) := by
  intro pool
  induction pool with
  | nil => intro acc rej; simp [greedyFill]
  | cons i rest ih =>
    intro acc rej
    simp only [greedyFill]
    by_cases hcap : capacityOk c ((acc ++ [i]) ++ base) = true
    · rw [if_pos hcap]
      exact (ih (acc ++ [i]) rej).trans (shuffle_reserved i acc rej rest)
    · rw [if_neg hcap]
      refine (ih acc (rej ++ [i])).trans ?_
      have heq : (acc ++ (rej ++ [i])) ++ rest = (acc ++ rej) ++ (i :: rest) := by simp
      rw [heq]

/- ------------------------------------------------------------------
Local-search lemmas.
------------------------------------------------------------------ -/

theorem swapCandidate_spec {c : PackingConstraints}
    {base sel rest : List PackableItem} {s : PackableItem}
    {p : List PackableItem × List PackableItem}
    (h : swapCandidate c base sel rest s = some p) :
    ∃ u, u ∈ rest ∧ p.1 = u :: sel.erase s ∧ p.2 = s :: rest.erase u ∧
      capacityOk c (p.1 ++ base) = true := by
  unfold swapCandidate at h
  split at h
  · rename_i u hf
    obtain rfl : (u :: sel.erase s, s :: rest.erase u) = p := Option.some.inj h
    have hu : u ∈ rest := List.mem_of_find?_eq_some hf
    have hp : swapTry c base sel s u = true := List.find?_some hf
    simp only [swapTry, Bool.and_eq_true] at hp
    exact ⟨u, hu, rfl, rfl, hp.1⟩
  · simp at h

theorem findSwapAux_spec {c : PackingConstraints} {base sel rest : List PackableItem} :
    ∀ (cands : List PackableItem) (p : List PackableItem × List PackableItem),
      findSwapAux c base sel rest cands = some p →
      ∃ s, s ∈ cands ∧ swapCandidate c base sel rest s = some p := by
  intro cands
  induction cands with
  | nil => intro p h; simp [findSwapAux] at h
  | cons s ss ih =>
    intro p h
    simp only [findSwapAux] at h
    split at h
    · rename_i p' hsc
      obtain rfl : p' = p := Option.some.inj h
      exact ⟨s, List.mem_cons_self _ _, hsc⟩
    · obtain ⟨s', hs', hsc⟩ := ih p h
      exact ⟨s', List.mem_cons_of_mem _ hs', hsc⟩

theorem localSearch_spec {c : PackingConstraints} {base : List PackableItem} :
    ∀ (fuel : ℕ) (sel rest : List PackableItem),
      (sel = [] ∨ capacityOk c (sel ++ base) = true) →
      ((localSearch c base fuel sel rest = [] ∨
          capacityOk c (localSearch c base fuel sel rest ++ base) = true) ∧
        ∃ r', (localSearch c base fuel sel rest ++ r').Perm (sel ++ rest)) := by
  intro fuel
  induction fuel with
  | zero => intro sel rest h; exact ⟨h, ⟨rest, List.Perm.refl _⟩⟩
  | succ fuel ih =>
    intro sel rest h
    simp only [localSearch]
    split
    · exact ⟨h, ⟨rest, List.Perm.refl _⟩⟩
    · rename_i p hf
      obtain ⟨s, hs, hsc⟩ := findSwapAux_spec sel p hf
      obtain ⟨u, hu, hp1, hp2, hcap⟩ := swapCandidate_spec hsc
      have hselperm : sel.Perm (s :: sel.erase s) := List.perm_cons_erase hs
      have hrestperm : rest.Perm (u :: rest.erase u) := List.perm_cons_erase hu
      have hswap : (p.1 ++ p.2).Perm (sel ++ rest) := by
        rw [hp1, hp2]; exact swap_perm hselperm hrestperm
      obtain ⟨hc, r', hr'⟩ := ih p.1 p.2 (Or.inr hcap)
      exact ⟨hc, ⟨r', hr'.trans hswap⟩⟩

/- ------------------------------------------------------------------
Phase B specification.
------------------------------------------------------------------ -/

theorem solveB_spec {c : PackingConstraints} {base : List PackableItem}
    (pool : List PackableItem)
    (hrem : 0 ≤ c.max_weight - totalWeight base)
    (hvol : totalVolume base ≤ c.max_volume) :
    totalWeight (solveB c base pool ++ base) ≤ c.max_weight ∧
    totalVolume (solveB c base pool ++ base) ≤ c.max_volume ∧
    ∃ r', (solveB c base pool ++ r').Perm pool := by
  by_cases hlen : pool.length ≤ exactnessThreshold
  · simp only [solveB, if_pos hlen]
    obtain ⟨hw, hadm, hsub⟩ := dpSolve_spec pool hrem
    refine ⟨?_, ?_, sublist_exists_perm_append hsub⟩
    · rw [totalWeight_append]; linarith
    · rcases hadm with hnil | hadm
      · rw [hnil]; simpa [totalVolume] using hvol
      · exact admissible_volume hadm
  · simp only [solveB, if_neg hlen]
    have hcap := @greedyFill_cap c base pool [] [] (Or.inl rfl)
    have hperm := @greedyFill_perm c base pool [] []
    obtain ⟨hc, r', hr'⟩ := localSearch_spec localSearchBudget
      (greedyFill c base pool [] []).1 (greedyFill c base pool [] []).2 hcap
    refine ⟨?_, ?_, ?_⟩
    · rcases hc with hnil | hcapok
      · rw [hnil]
        rw [totalWeight_append, totalWeight_nil]
        linarith
      · exact capacityOk_weight hcapok
    · rcases hc with hnil | hcapok
      · rw [hnil]; simpa [totalVolume] using hvol
      · exact capacityOk_volume hcapok
    · refine ⟨r', hr'.trans ?_⟩
      simpa using hperm

/- ------------------------------------------------------------------
Pool-accounting without budget hypotheses (for the partition claim).
------------------------------------------------------------------ -/

theorem phaseAStep_perm {items : List PackableItem} {st : PhaseAState} (cat : String)
    (h : (st.reserved ++ st.pool).Perm items) :
    ((phaseAStep st cat).reserved ++ (phaseAStep st cat).pool).Perm items := by
  cases hcb : chooseBest (st.pool.filter (phaseAFits st.remW st.remV cat)) with
  | none => simp only [phaseAStep, hcb]; exact h
  | some b =>
    have hbpool : b ∈ st.pool := List.mem_of_mem_filter (chooseBest_mem hcb)
    have h1 : (st.pool).Perm (b :: st.pool.erase b) := List.perm_cons_erase hbpool
    have hstep : ((st.reserved ++ [b]) ++ st.pool.erase b).Perm (st.reserved ++ st.pool) := by
      rw [List.append_assoc]
      exact (h1.symm).append_left st.reserved
    simp only [phaseAStep, hcb]
    exact hstep.trans h

theorem phaseA_foldl_perm {items : List PackableItem} :
    ∀ (cats : List String) (st : PhaseAState),
      (st.reserved ++ st.pool).Perm items →
      ((List.foldl phaseAStep st cats).reserved ++
        (List.foldl phaseAStep st cats).pool).Perm items := by
  intro cats
  induction cats with
  | nil => intro st h; exact h
  | cons cat cats ih => intro st h; exact ih _ (phaseAStep_perm cat h)

theorem phaseA_perm (items : List PackableItem) (c : PackingConstraints) :
    ((phaseA items c).reserved ++ (phaseA items c).pool).Perm items := by
  unfold phaseA
  exact phaseA_foldl_perm _ _ (by simp)

theorem dpSolve_sublist (c : PackingConstraints) (base pool : List PackableItem) :
    (dpSolve c base pool).Sublist pool := by
  cases hp : pickBest ((List.range (dpBudget c base + 1)).filterMap
      (fun w => dpTable c base pool w)) with
  | none =>
    have hd : dpSolve c base pool = [] := by simp [dpSolve, hp]
    rw [hd]; exact List.nil_sublist _
  | some s =>
    have hd : dpSolve c base pool = s := by simp [dpSolve, hp]
    rw [hd]
    obtain ⟨w, _, hw⟩ := List.mem_filterMap.mp (pickBest_mem hp)
    exact (dpTable_spec pool w s hw).1

theorem solveB_perm (c : PackingConstraints) (base pool : List PackableItem) :
    ∃ r', (solveB c base pool ++ r').Perm pool := by
  by_cases hlen : pool.length ≤ exactnessThreshold
  · simp only [solveB, if_pos hlen]
    exact sublist_exists_perm_append (dpSolve_sublist c base pool)
  · simp only [solveB, if_neg hlen]
    have hcap := @greedyFill_cap c base pool [] [] (Or.inl rfl)
    have hperm := @greedyFill_perm c base pool [] []
    obtain ⟨_, r', hr'⟩ := localSearch_spec localSearchBudget
      (greedyFill c base pool [] []).1 (greedyFill c base pool [] []).2 hcap
    refine ⟨r', hr'.trans ?_⟩
    simpa using hperm

/- ------------------------------------------------------------------
Result-assembler projection lemmas.
------------------------------------------------------------------ -/

theorem optimize_def (items : List PackableItem) (c : PackingConstraints) :
    optimize items c =
      assemble items c
        ((phaseA (List.insertionSort sortLe items) c).reserved ++
          solveB c (phaseA (List.insertionSort sortLe items) c).reserved
            (phaseA (List.insertionSort sortLe items) c).pool)
        (phaseA (List.insertionSort sortLe items) c).unmet := rfl

theorem assemble_selected_map (items : List PackableItem) (c : PackingConstraints)
    (raw : List PackableItem) (unmet : List String) :
    (assemble items c raw unmet).selected.map Prod.fst = List.insertionSort utilGe raw := by
  show (List.map (fun i => (i, itemUtility i)) (List.insertionSort utilGe raw)).map Prod.fst
      = List.insertionSort utilGe raw
  rw [List.map_map]
  exact List.map_id _

theorem assemble_total_weight (items : List PackableItem) (c : PackingConstraints)
    (raw : List PackableItem) (unmet : List String) :
    (assemble items c raw unmet).total_weight = totalWeight raw :=
  totalWeight_perm (List.perm_insertionSort utilGe raw)

theorem assemble_total_volume (items : List PackableItem) (c : PackingConstraints)
    (raw : List PackableItem) (unmet : List String) :
    (assemble items c raw unmet).total_volume = totalVolume raw :=
  totalVolume_perm (List.perm_insertionSort utilGe raw)

theorem assemble_total_utility (items : List PackableItem) (c : PackingConstraints)
    (raw : List PackableItem) (unmet : List String) :
    (assemble items c raw unmet).total_utility = totalUtility raw :=
  totalUtility_perm (List.perm_insertionSort utilGe raw)

theorem assemble_feasible (items : List PackableItem) (c : PackingConstraints)
    (raw : List PackableItem) (unmet : List String) :
    (assemble items c raw unmet).feasible
      = (unmet.isEmpty && minimumsOk c (List.insertionSort utilGe raw)) := rfl

theorem assemble_rejected_perm (items : List PackableItem) (c : PackingConstraints)
    (raw : List PackableItem) (unmet : List String) :
    ((assemble items c raw unmet).rejected.map Prod.fst).Perm
      (items.filter (fun i => decide (¬ i ∈ List.insertionSort utilGe raw))) := by
  show ((List.insertionSort reasonLe
      ((items.filter (fun i => decide (¬ i ∈ List.insertionSort utilGe raw))).map
        (fun i => (i, rejectionReason c (List.insertionSort utilGe raw) i)))).map Prod.fst).Perm _
  refine ((List.perm_insertionSort reasonLe _).map Prod.fst).trans ?_
  rw [List.map_map]
  exact (List.map_id _).symm ▸ List.Perm.refl _

/- ------------------------------------------------------------------
Partition of the input into selected and rejected.
------------------------------------------------------------------ -/

theorem partition_core (items : List PackableItem) (c : PackingConstraints)
    (L r₀ : List PackableItem) (unmet : List String)
    (hnd : items.Nodup) (hLr : (L ++ r₀).Perm items) :
    (((assemble items c L unmet).selected.map Prod.fst) ++
      ((assemble items c L unmet).rejected.map Prod.fst)).Perm items ∧
    ∀ i, i ∈ (assemble items c L unmet).selected.map Prod.fst →
      i ∉ (assemble items c L unmet).rejected.map Prod.fst := by
  have hndL : L.Nodup := List.Nodup.of_append_left ((hLr.nodup_iff).mpr hnd)
  have hsubL : ∀ x, x ∈ L → x ∈ items := fun x hx =>
    (hLr.mem_iff).mp (List.mem_append_left _ hx)
  have hSperm : (List.insertionSort utilGe L).Perm L := List.perm_insertionSort _ _
  have hndS : (List.insertionSort utilGe L).Nodup := hSperm.nodup_iff.mpr hndL
  have hsubS : ∀ x, x ∈ List.insertionSort utilGe L → x ∈ items := fun x hx =>
    hsubL x (hSperm.mem_iff.mp hx)
  have hkey : (List.insertionSort utilGe L).Perm
      (items.filter (fun i => decide (i ∈ List.insertionSort utilGe L))) := by
    apply List.perm_of_nodup_nodup_toFinset_eq hndS (hnd.filter _)
    ext a
    simp only [List.mem_toFinset, List.mem_filter, decide_eq_true_eq]
    exact ⟨fun ha => ⟨hsubS a ha, ha⟩, fun h => h.2⟩
  have hwhole : ((List.insertionSort utilGe L) ++
      items.filter (fun i => decide (¬ i ∈ List.insertionSort utilGe L))).Perm items := by
    have hfap := List.filter_append_perm
      (fun i => decide (i ∈ List.insertionSort utilGe L)) items
    have hnotEq : (fun a => ! decide (a ∈ List.insertionSort utilGe L))
        = (fun a => decide (¬ a ∈ List.insertionSort utilGe L)) := by
      funext a; simp [decide_not]
    rw [hnotEq] at hfap
    exact (hkey.append_right _).trans hfap
  have hrej := assemble_rejected_perm items c L unmet
  have hsel := assemble_selected_map items c L unmet
  constructor
  · rw [hsel]
    exact (hrej.append_left _).trans hwhole
  · intro i hiS hiR
    rw [hsel] at hiS
    have hmem : i ∈ items.filter (fun i => decide (¬ i ∈ List.insertionSort utilGe L)) :=
      hrej.mem_iff.mp hiR
    have hpred := (List.mem_filter.mp hmem).2
    simp only [decide_eq_true_eq] at hpred
    exact hpred hiS

/-- C3: the optimizer is deterministic: two invocations with identical item
lists and identical constraints return identical PackingResult values.  In
this embedding the optimizer is a pure function of its inputs, exactly as the
spec demands (sections 2 and 5), so equal inputs give equal outputs. -/
theorem optimize_deterministic (items₁ items₂ : List PackableItem)
    (c₁ c₂ : PackingConstraints) (h₁ : items₁ = items₂) (h₂ : c₁ = c₂) :
    optimize items₁ c₁ = optimize items₂ c₂ := by
  subst h₁; subst h₂; rfl

/-- Witness for C3 at a concrete invocation. -/
theorem optimize_deterministic_witness :
    optimize [cexRadioSmall] cexNoReqConstraints = optimize [cexRadioSmall] cexNoReqConstraints :=
  optimize_deterministic [cexRadioSmall] [cexRadioSmall] cexNoReqConstraints cexNoReqConstraints
    rfl rfl

/-- C4: resolve returns the fixed registered constraints for a registered
name (and only entries of the fixed registry), and raises the unknown-preset
error for every unregistered name. -/
theorem resolve_registry_contract (name : String)
    (h : CONSTRAINT_PRESETS.lookup name = none) :
    resolve "24h_recon" = Except.ok preset24hRecon ∧
    (∀ n c, resolve n = Except.ok c → (n, c) ∈ CONSTRAINT_PRESETS) ∧
    resolve name = Except.error PresetError.unknownPresetError := by
  refine ⟨by with_unfolding_all rfl, ?_, by simp [resolve, h]⟩
  intro n c hn
  simp only [resolve, CONSTRAINT_PRESETS, List.lookup] at hn ⊢
  by_cases h1 : (n == "24h_recon") = true
  · simp [h1] at hn
    simp [eq_of_beq h1, hn.symm]
  · by_cases h2 : (n == "72h_expedition") = true
    · simp [h1, h2] at hn
      simp [eq_of_beq h2, hn.symm]
    · simp [h1, h2] at hn

/-- Witness for C4 at the names of the spec, section 8. -/
theorem resolve_registry_contract_witness :
    resolve "24h_recon" = Except.ok preset24hRecon ∧
    (∀ n c, resolve n = Except.ok c → (n, c) ∈ CONSTRAINT_PRESETS) ∧
    resolve "nonexistent" = Except.error PresetError.unknownPresetError :=
  resolve_registry_contract "nonexistent" (by with_unfolding_all rfl)

/-- C7: for a valid item the utility returned by the scoring function lies in
the unit interval, and raising the semantic relevance while holding every
other attribute fixed never lowers the utility. -/
theorem score_unit_interval_and_relevance_monotone (i : PackableItem) (r r' : ℚ)
    (hv : validItem i) (hrr : r ≤ r') :
    0 ≤ score defaultWeights i ∧ score defaultWeights i ≤ 1 ∧
    score defaultWeights { i with relevance := r } ≤
      score defaultWeights { i with relevance := r' } := by
  obtain ⟨_, _, h1, h2, h3, h4, h5, h6, h7, h8⟩ := hv
  unfold score defaultWeights ScoringWeights.total
  norm_num
  refine ⟨by linarith, by linarith, by linarith⟩

/-- Witness for C7 at a concrete valid item and relevance pair. -/
theorem score_unit_interval_witness :
    0 ≤ score defaultWeights witScoreItem ∧ score defaultWeights witScoreItem ≤ 1 ∧
    score defaultWeights { witScoreItem with relevance := 0 } ≤
      score defaultWeights { witScoreItem with relevance := 1 } :=
  score_unit_interval_and_relevance_monotone witScoreItem 0 1
    (by constructor <;> norm_num [witScoreItem]) (by norm_num)

/-- C8: the vector-store search builds exactly one RetrievedItem per response
row, in response order; the score equals the row similarity; and a row with
the optional field absent gets the documented default: misc for
inferred_category, the empty string for utility_summary, the empty list for
semantic_tags. -/
theorem search_one_item_per_row (rows : List Row) (r : Row) (k : ℕ) :
    (searchResults rows).length = rows.length ∧
    (searchResults rows)[k]? = (rows[k]?).map rowToItem ∧
    (rowToItem r).score = r.similarity ∧
    (rowToItem { r with inferred_category := PyField.absent }).context.inferred_category
      = some "misc" ∧
    (rowToItem { r with utility_summary := PyField.absent }).context.utility_summary
      = some "" ∧
    (rowToItem { r with semantic_tags := PyField.absent }).context.semantic_tags
      = some [] := by
  refine ⟨?_, ?_, rfl, rfl, rfl, rfl⟩ <;> simp [searchResults]

/-- C9: batch ingest catches every per-item failure: the returned id list is
exactly the list of ids of the successfully ingested items in input order
(failed items are simply absent), and its length never exceeds the input
length. -/
theorem ingest_batch_skips_failures {α ε β : Type} (f : α → Except ε β) (xs : List α) :
    ingestBatch f xs = xs.filterMap (fun x => (f x).toOption) ∧
    (ingestBatch f xs).length ≤ xs.length := by
  constructor
  · induction xs with
    | nil => rfl
    | cons x xs ih => cases h : f x <;> simp [ingestBatch, h, Except.toOption, ih]
  · induction xs with
    | nil => simp [ingestBatch]
    | cons x xs ih =>
      cases h : f x <;> simp [ingestBatch, h] <;> omega

/-- C10: the count endpoint returns the carried count when the response has
one, and 0 when the response count is absent; either way the result is
non-negative whenever the carried count is a cardinality. -/
theorem count_nonneg_with_defaults (resp : Option ℤ)
    (h : ∀ n, resp = some n → 0 ≤ n) :
    0 ≤ countOrZero resp ∧ (resp = none → countOrZero resp = 0) ∧
    (∀ n, resp = some n → countOrZero resp = n) := by
  match resp with
  | none => exact ⟨le_refl 0, fun _ => rfl, fun n hn => by simp at hn⟩
  | some m =>
    refine ⟨?_, fun hn => by simp at hn, ?_⟩
    · have hm := h m rfl
      by_cases hz : m = 0 <;> simp [countOrZero, hz]
      exact hm
    · intro n hn
      cases hn
      by_cases hz : m = 0 <;> simp [countOrZero, hz]

/-- Witness for C10 at a concrete carried count. -/
theorem count_nonneg_witness :
    0 ≤ countOrZero (some 5) ∧ ((some 5 : Option ℤ) = none → countOrZero (some 5) = 0) ∧
    (∀ n, (some 5 : Option ℤ) = some n → countOrZero (some 5) = n) :=
  count_nonneg_with_defaults (some 5) (by intro n hn; cases hn; norm_num)

/-- C1: for every optimization call with well-formed bounds, the selection of
the returned result satisfies the capacity bounds: the weights of the
selected items sum to at most max_weight and their volumes to at most
max_volume.  This holds on both the exact dynamic-programming path and the
greedy heuristic path. -/
theorem optimize_within_capacity (items : List PackableItem) (c : PackingConstraints)
    (hw : 0 ≤ c.max_weight) (hv : 0 ≤ c.max_volume) :
    totalWeight ((optimize items c).selected.map Prod.fst) ≤ c.max_weight ∧
    totalVolume ((optimize items c).selected.map Prod.fst) ≤ c.max_volume := by
  obtain ⟨hperm, hWeq, hVeq, hWn, hVn⟩ :=
    @phaseA_inv c (List.insertionSort sortLe items) hw hv
  have hrem : 0 ≤ c.max_weight
      - totalWeight (phaseA (List.insertionSort sortLe items) c).reserved := by
    rw [← hWeq]; exact hWn
  have hbvol : totalVolume (phaseA (List.insertionSort sortLe items) c).reserved
      ≤ c.max_volume := by
    rw [hVeq] at hVn
    linarith
  obtain ⟨hwB, hvB, -⟩ :=
    solveB_spec (phaseA (List.insertionSort sortLe items) c).pool hrem hbvol
  rw [optimize_def, assemble_selected_map]
  constructor
  · rw [totalWeight_perm (List.perm_insertionSort utilGe _), totalWeight_append]
    rw [totalWeight_append] at hwB
    linarith
  · rw [totalVolume_perm (List.perm_insertionSort utilGe _), totalVolume_append]
    rw [totalVolume_append] at hvB
    linarith

/-- Witness for C1 at a concrete call. -/
theorem optimize_within_capacity_witness :
    totalWeight ((optimize [cexRadioSmall, cexFoodPack] cexNoReqConstraints).selected.map
      Prod.fst) ≤ cexNoReqConstraints.max_weight ∧
    totalVolume ((optimize [cexRadioSmall, cexFoodPack] cexNoReqConstraints).selected.map
      Prod.fst) ≤ cexNoReqConstraints.max_volume :=
  optimize_within_capacity [cexRadioSmall, cexFoodPack] cexNoReqConstraints
    (by norm_num [cexNoReqConstraints]) (by norm_num [cexNoReqConstraints])

/-- C2: for every duplicate-free input item list, the selected and rejected
items of the returned result partition the input exactly: together they are a
permutation of the input (no item omitted or duplicated) and no item is in
both. -/
theorem optimize_partitions_items (items : List PackableItem) (c : PackingConstraints)
    (hnd : items.Nodup) :
    (((optimize items c).selected.map Prod.fst) ++
      ((optimize items c).rejected.map Prod.fst)).Perm items ∧
    ∀ i, i ∈ (optimize items c).selected.map Prod.fst →
      i ∉ (optimize items c).rejected.map Prod.fst := by
  have hsorted : (List.insertionSort sortLe items).Perm items := List.perm_insertionSort _ _
  have hpermA : ((phaseA (List.insertionSort sortLe items) c).reserved ++
      (phaseA (List.insertionSort sortLe items) c).pool).Perm
        (List.insertionSort sortLe items) := phaseA_perm _ _
  obtain ⟨r₀, hr₀⟩ := solveB_perm c (phaseA (List.insertionSort sortLe items) c).reserved
    (phaseA (List.insertionSort sortLe items) c).pool
  have hLr : (((phaseA (List.insertionSort sortLe items) c).reserved ++
      solveB c (phaseA (List.insertionSort sortLe items) c).reserved
        (phaseA (List.insertionSort sortLe items) c).pool) ++ r₀).Perm items := by
    rw [List.append_assoc]
    exact ((hr₀.append_left _).trans hpermA).trans hsorted
  rw [optimize_def]
  exact partition_core items c _ r₀ _ hnd hLr

/-- Witness for C2 at a concrete duplicate-free input. -/
theorem optimize_partitions_items_witness :
    (((optimize [cexRadioSmall, cexFoodPack, cexAnvil] cexNoReqConstraints).selected.map
        Prod.fst) ++
      ((optimize [cexRadioSmall, cexFoodPack, cexAnvil] cexNoReqConstraints).rejected.map
        Prod.fst)).Perm [cexRadioSmall, cexFoodPack, cexAnvil] ∧
    ∀ i, i ∈ (optimize [cexRadioSmall, cexFoodPack, cexAnvil]
        cexNoReqConstraints).selected.map Prod.fst →
      i ∉ (optimize [cexRadioSmall, cexFoodPack, cexAnvil]
        cexNoReqConstraints).rejected.map Prod.fst :=
  optimize_partitions_items [cexRadioSmall, cexFoodPack, cexAnvil] cexNoReqConstraints
    (by norm_num [cexRadioSmall, cexFoodPack, cexAnvil, List.Nodup])

/- ------------------------------------------------------------------
Phase A coverage lemmas (for the infeasibility claim).
------------------------------------------------------------------ -/

theorem phaseAStep_cover {c : PackingConstraints} {items : List PackableItem}
    {st : PhaseAState} (cat : String)
    (hval : ∀ i ∈ items, 0 ≤ i.weight ∧ 0 ≤ i.volume)
    (h : phaseACoverInv c items st) : phaseACoverInv c items (phaseAStep st cat) := by
  obtain ⟨hsub, hW, hV⟩ := h
  cases hcb : chooseBest (st.pool.filter (phaseAFits st.remW st.remV cat)) with
  | none =>
    simp only [phaseAStep, hcb]
    exact ⟨hsub, hW, hV⟩
  | some b =>
    have hbpool : b ∈ st.pool := List.mem_of_mem_filter (chooseBest_mem hcb)
    obtain ⟨hbw0, hbv0⟩ := hval b (hsub b hbpool)
    simp only [phaseAStep, hcb]
    refine ⟨?_, ?_, ?_⟩
    · intro i hi
      exact hsub i (List.erase_subset _ _ hi)
    · show st.remW - b.weight ≤ c.max_weight
      linarith
    · show st.remV - b.volume ≤ c.max_volume
      linarith

theorem phaseAStep_unmet_mono {st : PhaseAState} (cat : String)
    (h : st.unmet ≠ []) : (phaseAStep st cat).unmet ≠ [] := by
  cases hcb : chooseBest (st.pool.filter (phaseAFits st.remW st.remV cat)) with
  | none =>
    simp only [phaseAStep, hcb]
    simp [List.append_eq_nil]
  | some b =>
    simp only [phaseAStep, hcb]
    exact h

theorem phaseA_foldl_unmet_mono : ∀ (cats : List String) (st : PhaseAState),
    st.unmet ≠ [] → (List.foldl phaseAStep st cats).unmet ≠ [] := by
  intro cats
  induction cats with
  | nil => intro st h; exact h
  | cons cat cats ih => intro st h; exact ih _ (phaseAStep_unmet_mono cat h)

theorem phaseA_foldl_unmet {c : PackingConstraints} {items : List PackableItem}
    {cat : String}
    (hval : ∀ i ∈ items, 0 ≤ i.weight ∧ 0 ≤ i.volume)
    (hnone : ∀ i ∈ items, i.category = cat →
      ¬ (i.weight ≤ c.max_weight ∧ i.volume ≤ c.max_volume)) :
    ∀ (cats : List String) (st : PhaseAState), cat ∈ cats →
      phaseACoverInv c items st →
      (List.foldl phaseAStep st cats).unmet ≠ [] := by
  intro cats
  induction cats with
  | nil => intro st h; simp at h
  | cons c' cats ih =>
    intro st hmem hinv
    rcases List.mem_cons.mp hmem with rfl | htail
    · obtain ⟨hsub, hW, hV⟩ := hinv
      have hfilter : st.pool.filter (phaseAFits st.remW st.remV cat) = [] := by
        rw [List.filter_eq_nil]
        intro i hi hfits
        obtain ⟨hcat, hw, hv⟩ := phaseAFits_spec hfits
        exact hnone i (hsub i hi) hcat ⟨hw.trans hW, hv.trans hV⟩
      have hstep : (phaseAStep st cat).unmet ≠ [] := by
        simp only [phaseAStep, hfilter, chooseBest]
        simp [List.append_eq_nil]
      simp only [List.foldl_cons]
      exact phaseA_foldl_unmet_mono cats _ hstep
    · simp only [List.foldl_cons]
      exact ih _ htail (phaseAStep_cover c' hval hinv)

/-- Counterexample to C5 as stated: an input where no item fits the weight
budget but no category is required; the optimizer returns the empty
best-effort selection with feasible = true, not false. -/
theorem optimize_no_fit_feasible_true :
    (∀ i ∈ [cexAnvil], ¬ i.weight ≤ cexNoReqConstraints.max_weight) ∧
    (optimize [cexAnvil] cexNoReqConstraints).selected = [] ∧
    (optimize [cexAnvil] cexNoReqConstraints).feasible = true := by
  refine ⟨?_, by with_unfolding_all rfl, by with_unfolding_all rfl⟩
  intro i hi
  simp only [List.mem_singleton] at hi
  subst hi
  norm_num [cexAnvil, cexNoReqConstraints]

/-- C5 (amended): the optimizer never raises on infeasible inputs: it is a
total function into PackingResult, and when some required category has no
individually fitting item at all, the returned best-effort result carries
feasible = false.  (When merely no item fits but no category is required and
no minimum is set, the assembler of spec section 4.5 reports feasible = true,
so that part of the original claim is dropped.) -/
theorem optimize_required_unfit_infeasible (items : List PackableItem)
    (c : PackingConstraints) (cat : String)
    (hval : ∀ i ∈ items, 0 ≤ i.weight ∧ 0 ≤ i.volume)
    (hreq : cat ∈ c.required_categories)
    (hnone : ∀ i ∈ items, i.category = cat →
      ¬ (i.weight ≤ c.max_weight ∧ i.volume ≤ c.max_volume)) :
    (optimize items c).feasible = false := by
  have hvalS : ∀ i ∈ List.insertionSort sortLe items, 0 ≤ i.weight ∧ 0 ≤ i.volume :=
    fun i hi => hval i ((List.perm_insertionSort sortLe items).mem_iff.mp hi)
  have hnoneS : ∀ i ∈ List.insertionSort sortLe items, i.category = cat →
      ¬ (i.weight ≤ c.max_weight ∧ i.volume ≤ c.max_volume) :=
    fun i hi => hnone i ((List.perm_insertionSort sortLe items).mem_iff.mp hi)
  have hunmet : (phaseA (List.insertionSort sortLe items) c).unmet ≠ [] := by
    unfold phaseA
    exact phaseA_foldl_unmet hvalS hnoneS _ _ (List.mem_dedup.mpr hreq)
      ⟨fun i hi => hi, le_refl _, le_refl _⟩
  rw [optimize_def, assemble_feasible]
  have hempty : (phaseA (List.insertionSort sortLe items) c).unmet.isEmpty = false := by
    rcases hne : (phaseA (List.insertionSort sortLe items) c).unmet with _ | ⟨x, xs⟩
    · exact absurd hne hunmet
    · rfl
  rw [hempty]
  rfl

/-- Witness for C5 at a concrete input whose required category has no
fitting item. -/
theorem optimize_required_unfit_infeasible_witness :
    (optimize [cexMedKit] cexReqMedicalConstraints).feasible = false :=
  optimize_required_unfit_infeasible [cexMedKit] cexReqMedicalConstraints "medical"
    (by intro i hi; simp only [List.mem_singleton] at hi; subst hi; norm_num [cexMedKit])
    (by simp [cexReqMedicalConstraints])
    (by intro i hi hcat; simp only [List.mem_singleton] at hi; subst hi
        norm_num [cexMedKit, cexReqMedicalConstraints])

/- ------------------------------------------------------------------
Weight-budget monotonicity on the exact path.
------------------------------------------------------------------ -/

theorem dpTable_congr {c c' : PackingConstraints} {base : List PackableItem}
    (hV : c.max_volume = c'.max_volume) (hI : c.max_items = c'.max_items)
    (hM : c.category_maximums = c'.category_maximums) :
    ∀ (pool : List PackableItem) (w : ℕ), dpTable c base pool w = dpTable c' base pool w := by
  have hadm : ∀ l, admissible c l = admissible c' l := by
    intro l
    simp [admissible, volumeOk, countOk, catMaxOk, hV, hI, hM]
  intro pool
  induction pool with
  | nil => intro w; rfl
  | cons i rest ih =>
    intro w
    simp only [dpTable]
    rw [ih w]
    by_cases hcw : ceilW i ≤ w
    · rw [if_pos hcw, if_pos hcw, ih (w - ceilW i)]
      cases dpTable c' base rest (w - ceilW i) with
      | none => rfl
      | some s =>
        dsimp only
        rw [hadm]
    · rw [if_neg hcw, if_neg hcw]

theorem dpBudget_mono {c c' : PackingConstraints} {base : List PackableItem}
    (hw : c.max_weight ≤ c'.max_weight) : dpBudget c base ≤ dpBudget c' base := by
  unfold dpBudget
  have hle : c.max_weight - totalWeight base ≤ c'.max_weight - totalWeight base := by
    linarith
  exact Int.toNat_le_toNat (Int.floor_le_floor hle)

theorem dpSolve_utility_mono {c c' : PackingConstraints} {base pool : List PackableItem}
    (hV : c.max_volume = c'.max_volume) (hI : c.max_items = c'.max_items)
    (hM : c.category_maximums = c'.category_maximums)
    (hw : c.max_weight ≤ c'.max_weight) :
    totalUtility (dpSolve c base pool) ≤ totalUtility (dpSolve c' base pool) := by
  have hff : (fun w => dpTable c' base pool w) = (fun w => dpTable c base pool w) := by
    funext w
    exact (dpTable_congr hV hI hM pool w).symm
  have hsub : ((List.range (dpBudget c base + 1)).filterMap
        (fun w => dpTable c base pool w)).Sublist
      ((List.range (dpBudget c' base + 1)).filterMap
        (fun w => dpTable c base pool w)) := by
    apply List.Sublist.filterMap
    exact List.range_sublist.mpr (by have := @dpBudget_mono c c' base hw; omega)
  obtain ⟨s₀, hs₀⟩ := Option.isSome_iff_exists.mp (@dpTable_zero_isSome c base pool)
  have hmem₁ : s₀ ∈ (List.range (dpBudget c base + 1)).filterMap
      (fun w => dpTable c base pool w) :=
    List.mem_filterMap.mpr ⟨0, List.mem_range.mpr (Nat.succ_pos _), hs₀⟩
  cases hp1 : pickBest ((List.range (dpBudget c base + 1)).filterMap
      (fun w => dpTable c base pool w)) with
  | none =>
    exact absurd (pickBest_eq_none hp1) (List.ne_nil_of_mem hmem₁)
  | some b1 =>
    have hb1mem := pickBest_mem hp1
    have hb1in2 := hsub.subset hb1mem
    cases hp2 : pickBest ((List.range (dpBudget c' base + 1)).filterMap
        (fun w => dpTable c base pool w)) with
    | none =>
      exact absurd (pickBest_eq_none hp2) (List.ne_nil_of_mem hb1in2)
    | some b2 =>
      have hmax := pickBest_is_max hp2 b1 hb1in2
      have hd1 : dpSolve c base pool = b1 := by simp [dpSolve, hp1]
      have hd2 : dpSolve c' base pool = b2 := by
        simp only [dpSolve, hff]
        rw [hp2]
      rw [hd1, hd2]
      exact hmax

/-- Counterexample to C6 as stated: a three-item pool on the exact path with
a required comms category.  Raising max_weight from 5 to 6, holding every
other input fixed, makes phase A reserve the heavier, marginally
higher-utility radio, exhausting the budget; total utility drops from 9/10
to 81/200. -/
theorem optimize_weight_monotonicity_fails :
    cexCommsConstraints 6 = { cexCommsConstraints 5 with max_weight := 6 } ∧
    (cexCommsConstraints 5).max_weight ≤ (cexCommsConstraints 6).max_weight ∧
    [cexRadioBig, cexRadioSmall, cexFoodPack].length ≤ exactnessThreshold ∧
    (optimize [cexRadioBig, cexRadioSmall, cexFoodPack]
        (cexCommsConstraints 6)).total_utility <
      (optimize [cexRadioBig, cexRadioSmall, cexFoodPack]
        (cexCommsConstraints 5)).total_utility := by
  refine ⟨rfl, by norm_num [cexCommsConstraints], by norm_num [exactnessThreshold], ?_⟩
  have h6 : (optimize [cexRadioBig, cexRadioSmall, cexFoodPack]
      (cexCommsConstraints 6)).total_utility = 81/200 := by
    with_unfolding_all rfl
  have h5 : (optimize [cexRadioBig, cexRadioSmall, cexFoodPack]
      (cexCommsConstraints 5)).total_utility = 9/10 := by
    with_unfolding_all rfl
  rw [h5, h6]
  norm_num

/-- C6 (amended): on the exact dynamic-programming path, with no required
categories (so that the mandatory-coverage phase reserves nothing),
increasing max_weight while holding every other input fixed never decreases
the total utility of the returned result.  With required categories, the
greedy phase A reservation can consume the enlarged budget and lower the
total, as the counterexample shows. -/
theorem optimize_exact_weight_monotone (items : List PackableItem)
    (c : PackingConstraints) (w' : ℚ)
    (hreq : c.required_categories = [])
    (hsize : items.length ≤ exactnessThreshold)
    (hmw : c.max_weight ≤ w') :
    (optimize items c).total_utility ≤
      (optimize items { c with max_weight := w' }).total_utility := by
  have hA : ∀ (cc : PackingConstraints), cc.required_categories = [] →
      phaseA (List.insertionSort sortLe items) cc =
        { reserved := [], pool := List.insertionSort sortLe items,
          remW := cc.max_weight, remV := cc.max_volume, unmet := [] } := by
    intro cc h
    simp [phaseA, h]
  have hc' : ({ c with max_weight := w' } : PackingConstraints).required_categories = [] :=
    hreq
  rw [optimize_def, optimize_def, hA c hreq, hA _ hc',
    assemble_total_utility, assemble_total_utility]
  dsimp only
  simp only [List.nil_append]
  have hlen : (List.insertionSort sortLe items).length ≤ exactnessThreshold := by
    rw [List.length_insertionSort]
    exact hsize
  simp only [solveB, if_pos hlen]
  exact dpSolve_utility_mono rfl rfl rfl hmw

/-- Witness for C6 (amended) at a concrete call. -/
theorem optimize_exact_weight_monotone_witness :
    (optimize [cexRadioSmall] cexNoReqConstraints).total_utility ≤
      (optimize [cexRadioSmall] { cexNoReqConstraints with max_weight := 7 }).total_utility :=
  optimize_exact_weight_monotone [cexRadioSmall] cexNoReqConstraints 7 rfl
    (by norm_num [exactnessThreshold]) (by norm_num [cexNoReqConstraints])

end Nexus
